import Mathlib

/-!
A verification development for the `mlflow-faculty` artifact repository
adapter (`mlflow_faculty/artifacts.py`).

Strings are modelled as `List Char`.  The Python string, `posixpath`,
`urllib.parse` and `uuid` primitives used by the adapter are embedded as
executable Lean functions, translated from the CPython 3.8+ standard
library sources; the adapter's own methods are translated from
`mlflow_faculty/artifacts.py`.  Calls delegated to the external Faculty
datasets / object-store client are reified as records of the arguments
passed (`PutCall`, `GetCall`) or, for the paginated listing, driven by a
finite script of responses (`ListPage`).
-/

set_option maxRecDepth 16384

abbrev Str := List Char

deriving instance DecidableEq for Except

/-- Coerce a Lean string literal to the `List Char` representation. -/
def chars (s : String) : Str := s.data

/-! ## Python string primitives -/

/-- Python `s.lstrip(cs)`: remove leading characters drawn from `cs`. -/
def pyLStripChars (cs : List Char) (l : Str) : Str :=
  l.dropWhile (fun c => cs.contains c)

/-- Python `s.rstrip(cs)`: remove trailing characters drawn from `cs`. -/
def pyRStripChars (cs : List Char) (l : Str) : Str :=
  (l.reverse.dropWhile (fun c => cs.contains c)).reverse

/-- Python `s.strip(cs)`: remove leading and trailing characters from `cs`. -/
def pyStripChars (cs : List Char) (l : Str) : Str :=
  pyRStripChars cs (pyLStripChars cs l)

/-- The ASCII whitespace characters stripped by Python `str.strip()`
(space, tab, newline, carriage return, vertical tab, form feed). -/
def pyWhitespace : List Char :=
  [' ', '\t', '\n', '\x0d', '\x0b', '\x0c']

/-- Python `s.replace(pat, rep)` for a non-empty pattern: replace all
non-overlapping occurrences, scanning left to right.  (For an empty
pattern the function is the identity; Python would instead interleave
`rep`, but the adapter only ever replaces non-empty patterns.)
The `fuel` argument makes the recursion structural; it only ever
decreases in step with the scanned string, so `fuel = l.length` in
`pyReplace` below never runs out. -/
def pyReplaceAux (pat rep : Str) : Nat → Str → Str
  | _, [] => []
  | 0, l => l
  | fuel + 1, c :: rest =>
    if !pat.isEmpty && pat.isPrefixOf (c :: rest) then
      rep ++ pyReplaceAux pat rep fuel (rest.drop (pat.length - 1))
    else
      c :: pyReplaceAux pat rep fuel rest

def pyReplace (pat rep : Str) (l : Str) : Str :=
  pyReplaceAux pat rep l.length l

/-! ## `urllib.parse.urlparse`, as in CPython 3.8+

Only the `scheme`, `netloc` and `path` components are modelled, because
the adapter reads nothing else.  Notes on fidelity:

* a scheme is recognised iff the text before the first `:` is non-empty
  and consists of letters, digits and `+`/`-`/`.`, and the remainder
  after the `:` is not a non-empty run of decimal digits (the
  "port number" disambiguation present in CPython 2.7 through 3.10,
  the interpreters this 2019-2020 code ran on); the scheme is
  lowercased (`urlsplit`);
* if the remainder starts with `//`, the netloc extends to the first of
  `/`, `?`, `#`; an authority containing `[` without `]` (or vice versa)
  makes `urlsplit` itself raise `ValueError("Invalid IPv6 URL")`, which
  is recorded in the `ipv6Bad` flag;
* the fragment (`#...`) and query (`?...`) are split off the path;
* `urlparse` additionally splits `;`-parameters off the path, but only
  for schemes in `uses_params`; `"faculty-datasets"` is not such a
  scheme, and when no scheme is recognised the adapter fails before
  reading the path, so parameter splitting is unobservable here and is
  not modelled. -/

/-- Characters allowed in a URL scheme (`urllib.parse.scheme_chars`). -/
def schemeChar (c : Char) : Bool :=
  c.isAlpha || c.isDigit || c == '+' || c == '-' || c == '.'

structure UrlParts where
  ipv6Bad : Bool
  scheme : Str
  netloc : Str
  path : Str
deriving DecidableEq, Repr

def pyUrlparse (url : Str) : UrlParts :=
  let i := (url.takeWhile (fun c => c ≠ ':')).length
  let rest0 := url.drop (i + 1)
  let hasScheme :=
    i < url.length ∧ 0 < i ∧ (url.take i).all schemeChar = true ∧
    (rest0 = [] ∨ ¬ rest0.all Char.isDigit = true)
  let scheme : Str := if hasScheme then (url.take i).map Char.toLower else []
  let rest : Str := if hasScheme then rest0 else url
  let hasNetloc := rest.take 2 = ['/', '/']
  let netloc : Str :=
    if hasNetloc then
      (rest.drop 2).takeWhile (fun c => c ≠ '/' ∧ c ≠ '?' ∧ c ≠ '#')
    else []
  let rest2 : Str := if hasNetloc then (rest.drop 2).dropWhile (fun c => c ≠ '/' ∧ c ≠ '?' ∧ c ≠ '#') else rest
  let bad := (netloc.contains '[' != netloc.contains ']')
  let path := (rest2.takeWhile (fun c => c ≠ '#')).takeWhile (fun c => c ≠ '?')
  ⟨bad, scheme, netloc, path⟩

/-! ## `uuid.UUID(hex=...)`, as in CPython 3.8+

The constructor succeeds iff, after removing every occurrence of
`urn:` and `uuid:`, stripping `{`/`}` from both ends and removing all
hyphens, exactly 32 characters remain and `int(hex, 16)` accepts them.
`int(_, 16)` tolerates surrounding whitespace, a leading sign, an
optional `0x`/`0X` prefix (optionally followed by one underscore), and
single underscores between digits.  The constructor's final range check
`0 <= int < 2**128` always passes here: hyphens (hence any minus sign)
have been removed and at most 32 hex digits remain. -/

def hexDigitChar (c : Char) : Bool :=
  c.isDigit || ('a' ≤ c && c ≤ 'f') || ('A' ≤ c && c ≤ 'F')

/-- After an accepted hex digit: digits with single underscores between
them (an underscore must be followed by a digit). -/
def hexTail : Str → Bool
  | [] => true
  | '_' :: c :: rest => hexDigitChar c && hexTail rest
  | '_' :: [] => false
  | c :: rest => hexDigitChar c && hexTail rest

/-- A non-empty run of hex digits with single interior underscores. -/
def hexDigits1 : Str → Bool
  | [] => false
  | c :: rest => hexDigitChar c && hexTail rest

/-- The digit part of an `int(_, 16)` literal: optional `0x`/`0X`
prefix (optionally followed by a single underscore), then digits. -/
def pyHexBody : Str → Bool
  | '0' :: 'x' :: r => hexDigits1 (if r.headD ' ' == '_' then r.tail else r)
  | '0' :: 'X' :: r => hexDigits1 (if r.headD ' ' == '_' then r.tail else r)
  | l => hexDigits1 l

/-- Acceptance of `int(s, 16)`: strip whitespace, optional sign, hex
digit run with the quirks above. -/
def pyInt16Accepts (l : Str) : Bool :=
  let s := pyStripChars pyWhitespace l
  match s with
  | '+' :: r => pyHexBody r
  | '-' :: r => pyHexBody r
  | r => pyHexBody r

def braceChars : List Char := [Char.ofNat 123, Char.ofNat 125]

/-- Whether `uuid.UUID(s)` succeeds. -/
def pyUUIDOk (s : Str) : Bool :=
  let h1 := pyReplace (chars "urn:") [] s
  let h2 := pyReplace (chars "uuid:") [] h1
  let h3 := pyStripChars braceChars h2
  let h4 := h3.filter (fun c => c ≠ '-')
  h4.length == 32 && pyInt16Accepts h4

example : pyUUIDOk (chars "2e37e380-599e-4b53-b928-ba26c35aa0d1") = true := by decide
example : pyUUIDOk (chars "12345678123456781234567812345678") = true := by decide
example : pyUUIDOk (chars "not-a-uuid") = false := by decide

/-! ## `posixpath`, as in CPython 3.8+ -/

/-- Model of `posixpath.join(a, b)` (two-argument form, the only one used). -/
def posixJoin (a b : Str) : Str :=
  if b.headD ' ' == '/' then b
  else if a.isEmpty || a.getLastD ' ' == '/' then a ++ b
  else a ++ '/' :: b

/-- Model of `os.path.basename(p)` on POSIX: everything after the last `/`
(i.e. the maximal `/`-free suffix). -/
def posixBasename (l : Str) : Str :=
  (l.reverse.takeWhile (fun c => c ≠ '/')).reverse

/-- Model of `os.path.dirname(p)` on POSIX: `head = p[:p.rfind('/') + 1]`, then
strip trailing slashes unless `head` is empty or consists of slashes. -/
def posixDirname (l : Str) : Str :=
  let head := (l.reverse.dropWhile (fun c => c ≠ '/')).reverse
  if head ≠ [] ∧ head ≠ List.replicate head.length '/' then
    pyRStripChars ['/'] head
  else head

/-- Python `p.split('/')` (unbounded split on a single character). -/
def splitSep : Str → List Str
  | [] => [[]]
  | c :: rest =>
    if c = '/' then [] :: splitSep rest
    else (splitSep rest).modifyHead (c :: ·)

/-- Model of `'/'.join(comps)`. -/
def joinSep : List Str → Str
  | [] => []
  | [x] => x
  | x :: y :: t => x ++ '/' :: joinSep (y :: t)

/-- The number of leading slashes `posixpath.normpath` preserves:
`initial_slashes` is 1 when the path starts with `/`, promoted to 2
when it starts with exactly two slashes (POSIX allows `//` to be
implementation-defined), 0 otherwise. -/
def slashCount (l : Str) : Nat :=
  if l.take 2 = ['/', '/'] then
    (if l.take 3 = ['/', '/', '/'] then 1 else 2)
  else if l.take 1 = ['/'] then 1 else 0

/-- One step of `normpath`'s component loop.  The accumulator is kept
reversed (most recently appended component first), so Python's
`new_comps.append` is `::`, `new_comps.pop()` is `.tail` and
`new_comps[-1]` is `.head?`. -/
def procComp (slashes : Nat) (acc : List Str) (comp : Str) : List Str :=
  if comp = [] ∨ comp = ['.'] then acc
  else if comp ≠ ['.', '.'] ∨ (slashes = 0 ∧ acc = []) ∨
      acc.head? = some ['.', '.'] then
    comp :: acc
  else if acc ≠ [] then acc.tail
  else acc

def processComps (slashes : Nat) (comps : List Str) : List Str :=
  (comps.foldl (procComp slashes) []).reverse

/-- Model of `posixpath.normpath(path)`: split on `/`, process the components,
re-join, re-attach the preserved leading slashes, defaulting to `.`. -/
def pyNormpath (l : Str) : Str :=
  if l = [] then ['.']
  else if List.replicate (slashCount l) '/' ++
      joinSep (processComps (slashCount l) (splitSep l)) = [] then ['.']
  else List.replicate (slashCount l) '/' ++
    joinSep (processComps (slashCount l) (splitSep l))

example : pyNormpath (chars "/a//b/./c/") = chars "/a/b/c" := by decide
example : pyNormpath (chars "/r/../../etc") = chars "/etc" := by decide
example : pyNormpath (chars "a/../../b") = chars "../b" := by decide
example : pyNormpath (chars "//x/y") = chars "//x/y" := by decide
example : pyNormpath (chars "") = chars "." := by decide
example : posixJoin (chars "/a/b") (chars "/c") = chars "/c" := by decide
example : posixDirname (chars "a/dir/x0") = chars "a/dir" := by decide
example : posixDirname (chars "/a//") = chars "/a" := by decide
example : posixDirname (chars "///") = chars "///" := by decide
example : posixBasename (chars "/local/file.txt") = chars "file.txt" := by decide

/-! ## The adapter: `FacultyDatasetsArtifactRepository`

Constructor failures are `Except.error` carrying the formatted
`ValueError` message; they are raised synchronously before the adapter
exists, which the pure `Except` models directly.  `project_id` stores
the accepted textual form of the UUID (the `UUID` object it denotes is
a pass-through value for every operation modelled here). -/

structure FacultyRepo where
  project_id : Str
  datasets_artifact_root : Str
deriving DecidableEq, Repr

def schemeErrMsg (uri : Str) : Str :=
  chars "Not a Faculty datasets URI: " ++ uri

def netlocErrMsg (uri netloc path : Str) : Str :=
  chars "Invalid URI " ++ uri ++
    chars ". Netloc is reserved. Did you mean 'faculty-datasets:" ++
    netloc ++ path ++ chars "'"

def uuidErrMsg (first uri : Str) : Str :=
  first ++ chars " in given URI " ++ uri ++ chars " is not a valid UUID"

def ipv6ErrMsg : Str := chars "Invalid IPv6 URL"

/-- The `cleaned_path = parsed_uri.path.strip("/") + "/"` step of `__init__`. -/
def cleanedPath (path : Str) : Str :=
  pyStripChars ['/'] path ++ ['/']

/-- The split `first_part, remainder = cleaned_path.split("/", 1)`; `cleanedPath`
always ends in `/`, so the one-bounded split always yields two parts. -/
def firstPart (cleaned : Str) : Str :=
  cleaned.takeWhile (fun c => c ≠ '/')

def remainderPart (cleaned : Str) : Str :=
  cleaned.drop ((cleaned.takeWhile (fun c => c ≠ '/')).length + 1)

/-- Model of `FacultyDatasetsArtifactRepository.__init__`. -/
def facultyInit (artifact_uri : Str) : Except Str FacultyRepo :=
  let pr := pyUrlparse artifact_uri
  if pr.ipv6Bad then .error ipv6ErrMsg
  else if pr.scheme ≠ chars "faculty-datasets" then
    .error (schemeErrMsg artifact_uri)
  else if pr.netloc ≠ [] then
    .error (netlocErrMsg artifact_uri pr.netloc pr.path)
  else
    let cleaned := cleanedPath pr.path
    if pyUUIDOk (firstPart cleaned) then
      .ok ⟨firstPart cleaned, '/' :: remainderPart cleaned⟩
    else .error (uuidErrMsg (firstPart cleaned) artifact_uri)

/-- Model of `FacultyDatasetsArtifactRepository._datasets_path`. -/
def datasetsPath (root artifact_path : Str) : Str :=
  pyNormpath (posixJoin root (pyLStripChars ['/'] artifact_path))

/-- The arguments of a delegated `faculty.datasets.put` call. -/
structure PutCall where
  src : Str
  dest : Str
  project : Str
deriving DecidableEq, Repr

/-- The arguments of a delegated `faculty.datasets.get` call. -/
structure GetCall where
  src : Str
  dest : Str
  project : Str
deriving DecidableEq, Repr

/-- Model of `log_artifact(local_file, artifact_path=None)`: the `datasets.put`
call it issues. -/
def logArtifactCall (repo : FacultyRepo) (local_file : Str)
    (artifact_path : Option Str) : PutCall :=
  let ap := artifact_path.getD (chars "./")
  let dest_path := posixJoin ap (posixBasename local_file)
  ⟨local_file, datasetsPath repo.datasets_artifact_root dest_path,
    repo.project_id⟩

/-- Model of `log_artifacts(local_dir, artifact_path=None)`: the `datasets.put`
call it issues. -/
def logArtifactsCall (repo : FacultyRepo) (local_dir : Str)
    (artifact_path : Option Str) : PutCall :=
  let ap := artifact_path.getD (chars "./")
  ⟨local_dir, datasetsPath repo.datasets_artifact_root ap, repo.project_id⟩

/-- Model of `_download_file(remote_file_path, local_path)`: the `datasets.get`
call it issues. -/
def downloadFileCall (repo : FacultyRepo) (remote_file_path local_path : Str) :
    GetCall :=
  ⟨datasetsPath repo.datasets_artifact_root remote_file_path, local_path,
    repo.project_id⟩

/-! ## `list_artifacts` -/

/-- The listing prefix: `_datasets_path(path)` with any trailing
slashes removed and a single `/` appended. -/
def listingPfx (root : Str) (path : Option Str) : Str :=
  pyRStripChars ['/'] (datasetsPath root (path.getD (chars "./"))) ++ ['/']

/-- One response of the object store's paginated `list` operation,
over an abstract object-record type `α`. -/
structure ListPage (α : Type) where
  objects : List α
  next_page_token : Option Str

/-- The pagination loop: the first `client.list` call returns `first`;
each re-invocation (made exactly when the previous response carried a
token) consumes the next scripted response.  Returns the accumulated
object records in arrival order and the number of `list` calls made. -/
def gatherPages {α : Type} : ListPage α → List (ListPage α) → List α × Nat
  | p, rest =>
    match p.next_page_token, rest with
    | none, _ => (p.objects, 1)
    | some _, [] => (p.objects, 1)
    | some _, q :: qs =>
      let r := gatherPages q qs
      (p.objects ++ r.1, r.2 + 1)

/-- A script is well formed when every response except the last carries
a continuation token and the last does not. -/
def pagesWellFormed {α : Type} : ListPage α → List (ListPage α) → Prop
  | p, [] => p.next_page_token = none
  | p, q :: qs => p.next_page_token ≠ none ∧ pagesWellFormed q qs

/-- A converted `mlflow.entities.FileInfo`; only the display path is
inspected by the adapter. -/
structure FileInfo where
  path : Str
  is_dir : Bool
  file_size : Int
deriving DecidableEq, Repr

/-- The final filter of `list_artifacts`: keep `i` iff its path is not
`"/"` or `"."` and (its dirname is `""` or the `path` argument, or
`recursive`).  `path` here is the raw argument (after the `None → "./"`
substitution), not the normalized listing prefix. -/
def keepInfo (path : Str) (recursive : Bool) (i : FileInfo) : Bool :=
  !(i.path == chars "/" || i.path == chars ".") &&
    (posixDirname i.path == [] || posixDirname i.path == path || recursive)

def filterListing (path : Str) (recursive : Bool)
    (infos : List FileInfo) : List FileInfo :=
  infos.filter (keepInfo path recursive)

/-- Model of `list_artifacts(path, recursive)` against a scripted store and an
abstract converter `conv` (the external
`faculty_object_to_mlflow_file_info`, partially applied to the stored
root).  Returns the filtered `FileInfo` list and the number of `list`
calls made. -/
def listArtifactsRun {α : Type} (conv : α → FileInfo)
    (path : Option Str) (recursive : Bool)
    (first : ListPage α) (rest : List (ListPage α)) :
    List FileInfo × Nat :=
  let p := path.getD (chars "./")
  let g := gatherPages first rest
  (filterListing p recursive (g.1.map conv), g.2)

example :
    facultyInit (chars "faculty-datasets:2e37e380-599e-4b53-b928-ba26c35aa0d1/path/in/datasets") =
      .ok ⟨chars "2e37e380-599e-4b53-b928-ba26c35aa0d1", chars "/path/in/datasets/"⟩ := by
  decide

example :
    facultyInit (chars "no/schema") =
      .error (schemeErrMsg (chars "no/schema")) := by decide

example :
    facultyInit (chars "faculty-datasets:invalid-uri") =
      .error (uuidErrMsg (chars "invalid-uri") (chars "faculty-datasets:invalid-uri")) := by
  decide

example :
    datasetsPath (chars "/path/in/datasets/") (chars "/remote/") =
      chars "/path/in/datasets/remote" := by decide

/-! ## Helper lemmas: slashes and stripping -/

lemma contains_slash (c : Char) :
    (['/'] : List Char).contains c = (c == '/') := by
  by_cases h : c = '/' <;> simp [h]

lemma lstripSlash_eq_dropWhile (l : Str) :
    pyLStripChars ['/'] l = l.dropWhile (fun c => c == '/') := by
  unfold pyLStripChars
  congr 1
  funext c
  exact contains_slash c

lemma dropWhile_idem {α : Type} (q : α → Bool) (l : List α) :
    (l.dropWhile q).dropWhile q = l.dropWhile q := by
  induction l with
  | nil => simp
  | cons c t ih =>
    by_cases h : q c <;> simp [List.dropWhile_cons, h, ih]

lemma lstripSlash_idem (l : Str) :
    pyLStripChars ['/'] (pyLStripChars ['/'] l) = pyLStripChars ['/'] l := by
  simp [lstripSlash_eq_dropWhile, dropWhile_idem]

lemma lstripSlash_replicate (n : Nat) (l : Str) :
    pyLStripChars ['/'] (List.replicate n '/' ++ l) = pyLStripChars ['/'] l := by
  induction n with
  | zero => simp
  | succ m ih =>
    simp only [List.replicate_succ, List.cons_append, lstripSlash_eq_dropWhile,
      List.dropWhile_cons] at ih ⊢
    simp [ih]

lemma lstripSlash_head (l : Str) :
    (pyLStripChars ['/'] l).headD ' ' ≠ '/' := by
  rw [lstripSlash_eq_dropWhile]
  induction l with
  | nil => simp
  | cons c t ih =>
    rw [List.dropWhile_cons]
    by_cases h : c = '/'
    · simp only [h, beq_self_eq_true, if_true]
      exact ih
    · simp [h]

lemma basename_no_slash (l : Str) : '/' ∉ posixBasename l := by
  unfold posixBasename
  intro hmem
  rw [List.mem_reverse] at hmem
  have hall := List.all_takeWhile (l := l.reverse) (p := fun c => decide (c ≠ '/'))
  have := List.all_eq_true.mp hall _ hmem
  simp at this

lemma basename_head (l : Str) : (posixBasename l).headD ' ' ≠ '/' := by
  intro h
  apply basename_no_slash l
  cases hb : posixBasename l with
  | nil => rw [hb] at h; simp at h
  | cons c t =>
    rw [hb] at h
    simp at h
    simp [hb, h]

/-! ## Helper lemmas: `splitSep` and `joinSep` -/

lemma splitSep_slash (l : Str) : splitSep ('/' :: l) = [] :: splitSep l := by
  simp [splitSep]

lemma splitSep_other (c : Char) (l : Str) (h : c ≠ '/') :
    splitSep (c :: l) = (splitSep l).modifyHead (c :: ·) := by
  simp [splitSep, h]

lemma splitSep_ne_nil (l : Str) : splitSep l ≠ [] := by
  induction l with
  | nil => simp [splitSep]
  | cons c t ih =>
    by_cases h : c = '/'
    · subst h; simp [splitSep_slash]
    · rw [splitSep_other c t h]
      cases ht : splitSep t with
      | nil => exact absurd ht ih
      | cons x xs => simp [List.modifyHead]

/-- Convenience: `splitSep t` as an explicit cons. -/
lemma splitSep_exists_cons (t : Str) :
    ∃ x xs, splitSep t = x :: xs := by
  cases ht : splitSep t with
  | nil => exact absurd ht (splitSep_ne_nil t)
  | cons x xs => exact ⟨x, xs, rfl⟩

lemma splitSep_append (a b : Str) :
    splitSep (a ++ '/' :: b) = splitSep a ++ splitSep b := by
  induction a with
  | nil => simp [splitSep_slash, splitSep]
  | cons c t ih =>
    by_cases h : c = '/'
    · subst h
      simp [splitSep_slash, ih]
    · rw [List.cons_append, splitSep_other c _ h, splitSep_other c _ h, ih]
      obtain ⟨x, xs, hx⟩ := splitSep_exists_cons t
      simp [hx, List.modifyHead]

lemma joinSep_cons (x : Str) (t : List Str) (h : t ≠ []) :
    joinSep (x :: t) = x ++ '/' :: joinSep t := by
  cases t with
  | nil => exact absurd rfl h
  | cons y ys => rfl

lemma joinSep_modifyHead (c : Char) (xs : List Str) (hxs : xs ≠ []) :
    joinSep (xs.modifyHead (c :: ·)) = c :: joinSep xs := by
  cases xs with
  | nil => exact absurd rfl hxs
  | cons x t =>
    cases t with
    | nil => rfl
    | cons y ys =>
      rw [List.modifyHead_cons, joinSep_cons (c :: x) (y :: ys) (by simp),
        joinSep_cons x (y :: ys) (by simp)]
      rfl

lemma joinSep_append (a b : List Str) (ha : a ≠ []) (hb : b ≠ []) :
    joinSep (a ++ b) = joinSep a ++ '/' :: joinSep b := by
  induction a with
  | nil => exact absurd rfl ha
  | cons x t ih =>
    cases t with
    | nil =>
      rw [List.singleton_append, joinSep_cons x b hb]
      rfl
    | cons z zs =>
      rw [List.cons_append, joinSep_cons x _ (by simp),
        joinSep_cons x _ (by simp), ih (by simp)]
      simp

lemma joinSep_splitSep (l : Str) : joinSep (splitSep l) = l := by
  induction l with
  | nil => rfl
  | cons c t ih =>
    by_cases h : c = '/'
    · subst h
      rw [splitSep_slash, joinSep_cons _ _ (splitSep_ne_nil t), ih]
      rfl
    · rw [splitSep_other c t h, joinSep_modifyHead c _ (splitSep_ne_nil t), ih]

lemma splitSep_no_slash (l : Str) : ∀ c ∈ splitSep l, '/' ∉ c := by
  induction l with
  | nil => simp [splitSep]
  | cons c t ih =>
    by_cases h : c = '/'
    · subst h
      rw [splitSep_slash]
      intro x hx
      rcases List.mem_cons.mp hx with hx | hx
      · subst hx; simp
      · exact ih x hx
    · rw [splitSep_other c t h]
      obtain ⟨x, xs, hx⟩ := splitSep_exists_cons t
      rw [hx] at ih ⊢
      rw [List.modifyHead_cons]
      intro y hy
      rcases List.mem_cons.mp hy with hy | hy
      · subst hy
        intro hmem
        rcases List.mem_cons.mp hmem with hm | hm
        · exact h hm.symm
        · exact ih x (List.mem_cons_self x xs) hm
      · exact ih y (List.mem_cons_of_mem x hy)

/-! ## Helper lemmas: `normpath` -/

/-- A component `normpath` keeps for inspection: non-empty and not `.`. -/
def goodComp (c : Str) : Bool := !(c == ([] : Str) || c == ['.'])

def goodComps (cs : List Str) : List Str := cs.filter goodComp

lemma goodComp_false_iff (c : Str) :
    goodComp c = false ↔ (c = [] ∨ c = ['.']) := by
  unfold goodComp
  by_cases h1 : c = []
  · simp [h1]
  · by_cases h2 : c = ['.'] <;> simp [h1, h2]

lemma procComp_skip (s : Nat) (acc : List Str) (c : Str)
    (h : goodComp c = false) : procComp s acc c = acc := by
  unfold procComp
  rw [if_pos ((goodComp_false_iff c).mp h)]

lemma procComp_keep (s : Nat) (acc : List Str) (c : Str)
    (hg : goodComp c = true) (hdd : c ≠ ['.', '.']) :
    procComp s acc c = c :: acc := by
  unfold procComp
  have hne : ¬(c = [] ∨ c = ['.']) := by
    intro hc
    rw [(goodComp_false_iff c).mpr hc] at hg
    exact Bool.false_ne_true hg
  rw [if_neg hne, if_pos (Or.inl hdd)]

lemma foldl_proc_filter (s : Nat) (cs : List Str) (acc : List Str) :
    cs.foldl (procComp s) acc = (goodComps cs).foldl (procComp s) acc := by
  induction cs generalizing acc with
  | nil => rfl
  | cons c t ih =>
    by_cases h : goodComp c
    · simp only [goodComps, List.filter_cons, h, if_true, List.foldl_cons]
      exact ih (procComp s acc c)
    · have h' : goodComp c = false := by simpa using h
      simp only [goodComps, List.filter_cons, h', List.foldl_cons, Bool.false_eq_true,
        if_false, procComp_skip s acc c h']
      exact ih acc

lemma foldl_proc_no_dd (s : Nat) (cs : List Str) (acc : List Str)
    (hdd : ['.', '.'] ∉ cs) :
    cs.foldl (procComp s) acc = (goodComps cs).reverse ++ acc := by
  induction cs generalizing acc with
  | nil => simp [goodComps]
  | cons c t ih =>
    have hc : c ≠ ['.', '.'] := fun h => hdd (h ▸ List.mem_cons_self c t)
    have ht : ['.', '.'] ∉ t := fun h => hdd (List.mem_cons_of_mem c h)
    by_cases h : goodComp c
    · rw [List.foldl_cons, procComp_keep s acc c h hc, ih (c :: acc) ht]
      simp [goodComps, List.filter_cons, h]
    · have h' : goodComp c = false := by simpa using h
      rw [List.foldl_cons, procComp_skip s acc c h', ih acc ht]
      simp [goodComps, List.filter_cons, h']

lemma processComps_no_dd (s : Nat) (cs : List Str)
    (hdd : ['.', '.'] ∉ cs) : processComps s cs = goodComps cs := by
  unfold processComps
  rw [foldl_proc_no_dd s cs [] hdd]
  simp

lemma processComps_congr (s : Nat) (cs ds : List Str)
    (h : goodComps cs = goodComps ds) :
    processComps s cs = processComps s ds := by
  unfold processComps
  rw [foldl_proc_filter s cs, foldl_proc_filter s ds, h]

lemma slashCount_nil : slashCount [] = 0 := by simp [slashCount]

lemma slashCount_pos_ne_nil {l : Str} (h : slashCount l ≠ 0) : l ≠ [] := by
  intro he
  subst he
  exact h slashCount_nil

lemma slashCount_append (a x : Str) (ha : a ≠ [])
    (hlast : a.getLastD ' ' = '/' → x.headD ' ' ≠ '/') :
    slashCount (a ++ x) = slashCount a := by
  match a with
  | [c1] =>
    by_cases hc1 : c1 = '/'
    · subst hc1
      have hx : x.headD ' ' ≠ '/' := hlast rfl
      cases x with
      | nil => simp
      | cons d xs =>
        have hd : d ≠ '/' := by simpa using hx
        simp [slashCount, List.take, hd]
    · cases x with
      | nil => simp
      | cons d xs => simp [slashCount, List.take, hc1]
  | [c1, c2] =>
    cases x with
    | nil => simp
    | cons d xs =>
      by_cases hc : c1 = '/' ∧ c2 = '/'
      · obtain ⟨h1, h2⟩ := hc
        subst h1
        subst h2
        have hd : d ≠ '/' := by simpa using hlast (by simp)
        simp [slashCount, List.take, hd]
      · have hne2 : ¬ (List.take 2 (c1 :: c2 :: d :: xs) = ['/', '/']) := by
          intro he
          simp only [List.take] at he
          injection he with he1 he2
          injection he2 with he2 _
          exact hc ⟨he1, he2⟩
        have hne2' : ¬ (List.take 2 ([c1, c2] : Str) = ['/', '/']) := by
          intro he
          simp only [List.take] at he
          injection he with he1 he2
          injection he2 with he2 _
          exact hc ⟨he1, he2⟩
        unfold slashCount
        rw [List.cons_append, List.cons_append, List.nil_append,
          if_neg hne2, if_neg hne2']
        simp [List.take]
  | c1 :: c2 :: c3 :: t =>
    simp [slashCount, List.take]

lemma pyNormpath_chr (l : Str) (h1 : slashCount l = 1)
    (hdd : ['.', '.'] ∉ splitSep l) :
    pyNormpath l = '/' :: joinSep (goodComps (splitSep l)) := by
  have hne : l ≠ [] := slashCount_pos_ne_nil (by omega)
  unfold pyNormpath
  rw [if_neg hne, h1, processComps_no_dd 1 _ hdd]
  simp

lemma pyNormpath_congr (a b : Str) (ha : a ≠ []) (hb : b ≠ [])
    (hs : slashCount a = slashCount b)
    (hc : goodComps (splitSep a) = goodComps (splitSep b)) :
    pyNormpath a = pyNormpath b := by
  unfold pyNormpath
  rw [if_neg ha, if_neg hb, hs, processComps_congr (slashCount b) _ _ hc]

lemma goodComps_append (a b : List Str) :
    goodComps (a ++ b) = goodComps a ++ goodComps b := by
  simp [goodComps]

lemma goodComps_join (root p' : Str) (hr : root ≠ [])
    (hp : p'.headD ' ' ≠ '/') :
    goodComps (splitSep (posixJoin root p')) =
      goodComps (splitSep root) ++ goodComps (splitSep p') := by
  unfold posixJoin
  rw [if_neg (by simpa using hp)]
  by_cases hg : root.getLastD ' ' = '/'
  · rw [if_pos (by simp; exact Or.inr (by simpa using hg))]
    rcases root.eq_nil_or_concat with hnil | ⟨r0, c, hr0⟩
    · exact absurd hnil hr
    · rw [List.concat_eq_append] at hr0
      have hc : c = '/' := by
        rw [hr0, List.getLastD_concat] at hg
        exact hg
      subst hc
      subst hr0
      have h1 : r0 ++ ['/'] ++ p' = r0 ++ '/' :: p' := by simp
      have h2 : r0 ++ ['/'] = r0 ++ '/' :: ([] : Str) := by simp
      rw [h1, h2, splitSep_append, splitSep_append, goodComps_append,
        goodComps_append]
      simp [splitSep, goodComps, goodComp]
  · rw [if_neg (by simp [hr]; simpa using hg)]
    rw [splitSep_append, goodComps_append]

/-- Under the same non-degeneracy conditions, the join keeps the
slash-prefix class of `root`. -/
lemma slashCount_join (root p' : Str) (hr : root ≠ [])
    (hp : p'.headD ' ' ≠ '/') :
    slashCount (posixJoin root p') = slashCount root := by
  unfold posixJoin
  rw [if_neg (by simpa using hp)]
  by_cases hg : root.getLastD ' ' = '/'
  · rw [if_pos (by simp; exact Or.inr (by simpa using hg))]
    exact slashCount_append root p' hr (fun _ => hp)
  · rw [if_neg (by simp [hr]; simpa using hg)]
    exact slashCount_append root ('/' :: p') hr (fun h => absurd h hg)

lemma posixJoin_ne_nil (root p' : Str) (hr : root ≠ []) :
    posixJoin root p' ≠ [] := by
  unfold posixJoin
  split
  · next h =>
    intro he
    subst he
    simp at h
  · split
    · simp [hr]
    · simp

lemma dd_mem_goodComps (cs : List Str) :
    ['.', '.'] ∈ goodComps cs ↔ ['.', '.'] ∈ cs := by
  unfold goodComps
  rw [List.mem_filter]
  simp [show goodComp ['.', '.'] = true by decide]

/-- Structure of `_datasets_path` when neither the root nor the
stripped caller path contributes a `..` component and the root is a
single-leading-slash absolute path. -/
lemma datasetsPath_chr (root p : Str) (h1 : slashCount root = 1)
    (hddr : ['.', '.'] ∉ splitSep root)
    (hddp : ['.', '.'] ∉ splitSep (pyLStripChars ['/'] p)) :
    datasetsPath root p =
      '/' :: joinSep (goodComps (splitSep root) ++
        goodComps (splitSep (pyLStripChars ['/'] p))) := by
  have hr : root ≠ [] := slashCount_pos_ne_nil (by omega)
  have hp := lstripSlash_head p
  have hgc := goodComps_join root (pyLStripChars ['/'] p) hr hp
  have hsc : slashCount (posixJoin root (pyLStripChars ['/'] p)) = 1 := by
    rw [slashCount_join root _ hr hp, h1]
  have hdd : ['.', '.'] ∉ splitSep (posixJoin root (pyLStripChars ['/'] p)) := by
    intro hmem
    have : ['.', '.'] ∈ goodComps (splitSep (posixJoin root (pyLStripChars ['/'] p))) :=
      (dd_mem_goodComps _).mpr hmem
    rw [hgc] at this
    rcases List.mem_append.mp this with hm | hm
    · exact hddr ((dd_mem_goodComps _).mp hm)
    · exact hddp ((dd_mem_goodComps _).mp hm)
  unfold datasetsPath
  rw [pyNormpath_chr _ hsc hdd, hgc]

/-- Whether adapter construction succeeds for a URI. -/
def facultyInitOk (uri : Str) : Bool :=
  match facultyInit uri with
  | .ok _ => true
  | .error _ => false

/-- Modelled from the spec: "canonical textual UUID form" — the
8-4-4-4-12 hyphen-separated hexadecimal layout (either case accepted,
reading "canonical" as generously as possible).  Used only to compare
the spec's claim against the code's actual UUID parser. -/
def specCanonicalUUID (s : Str) : Bool :=
  s.length == 36 &&
    (List.range 36).all (fun k =>
      if k = 8 ∨ k = 13 ∨ k = 18 ∨ k = 23 then s.getD k ' ' == '-'
      else hexDigitChar (s.getD k ' '))

/-- Modelled from the spec: a produced dataset path "lies under the
declared root" when it equals the normalized root, extends it past a
`/` boundary, or the normalized root is `/` itself (under which every
absolute path lies). -/
def underRoot (root q : Str) : Bool :=
  q == pyNormpath root || (pyNormpath root ++ ['/']).isPrefixOf q ||
    pyNormpath root == chars "/"

example : specCanonicalUUID (chars "2e37e380-599e-4b53-b928-ba26c35aa0d1") = true := by decide
example : specCanonicalUUID (chars "12345678123456781234567812345678") = false := by decide

lemma ipv6Bad_of_netloc_nil (u : Str) (h : (pyUrlparse u).netloc = []) :
    (pyUrlparse u).ipv6Bad = false := by
  have he : (pyUrlparse u).ipv6Bad =
      ((pyUrlparse u).netloc.contains '[' !=
        (pyUrlparse u).netloc.contains ']') := rfl
  rw [he, h]
  rfl

/-- Inversion: what a successful construction stores. -/
lemma facultyInit_ok_inv (uri : Str) (repo : FacultyRepo)
    (hok : facultyInit uri = .ok repo) :
    repo.project_id = firstPart (cleanedPath (pyUrlparse uri).path) ∧
    repo.datasets_artifact_root =
      '/' :: remainderPart (cleanedPath (pyUrlparse uri).path) := by
  by_cases hb : (pyUrlparse uri).ipv6Bad
  · simp [facultyInit, hb] at hok
  · by_cases hs : (pyUrlparse uri).scheme = chars "faculty-datasets"
    · by_cases hn : (pyUrlparse uri).netloc = []
      · by_cases hu : pyUUIDOk (firstPart (cleanedPath (pyUrlparse uri).path))
        · simp [facultyInit, hb, hs, hn, hu] at hok
          rw [← hok]
          exact ⟨rfl, rfl⟩
        · simp [facultyInit, hb, hs, hn, hu] at hok
      · simp [facultyInit, hb, hs, hn] at hok
    · simp [facultyInit, hb, hs] at hok

/-! ## Claims -/

/-- C1 (amended): construction succeeds iff the parsed scheme is
`faculty-datasets`, the authority is empty, and the first segment of
the cleaned path is accepted by Python's `uuid.UUID` constructor —
which accepts the canonical hyphenated form but also non-canonical
spellings (hyphenless, brace-wrapped, `urn:uuid:`-prefixed).  Each
violation raises its error (for scheme and netloc violations, provided
the URL parser itself did not already reject an unmatched IPv6 bracket
in the authority), and on success the stored root is `/` plus
everything after the UUID segment. -/
theorem c1_theorem (uri : Str) :
    (facultyInitOk uri = true ↔
      ((pyUrlparse uri).scheme = chars "faculty-datasets" ∧
        (pyUrlparse uri).netloc = [] ∧
        pyUUIDOk (firstPart (cleanedPath (pyUrlparse uri).path)) = true)) ∧
    ((pyUrlparse uri).ipv6Bad = false →
      (pyUrlparse uri).scheme ≠ chars "faculty-datasets" →
      facultyInit uri = .error (schemeErrMsg uri)) ∧
    ((pyUrlparse uri).ipv6Bad = false →
      (pyUrlparse uri).scheme = chars "faculty-datasets" →
      (pyUrlparse uri).netloc ≠ [] →
      facultyInit uri = .error
        (netlocErrMsg uri (pyUrlparse uri).netloc (pyUrlparse uri).path)) ∧
    ((pyUrlparse uri).scheme = chars "faculty-datasets" →
      (pyUrlparse uri).netloc = [] →
      pyUUIDOk (firstPart (cleanedPath (pyUrlparse uri).path)) = false →
      facultyInit uri = .error
        (uuidErrMsg (firstPart (cleanedPath (pyUrlparse uri).path)) uri)) ∧
    (∀ repo, facultyInit uri = .ok repo →
      repo.project_id = firstPart (cleanedPath (pyUrlparse uri).path) ∧
      repo.datasets_artifact_root =
        '/' :: remainderPart (cleanedPath (pyUrlparse uri).path)) := by
  refine ⟨?_, ?_, ?_, ?_, ?_⟩
  · constructor
    · intro hok
      by_cases hb : (pyUrlparse uri).ipv6Bad
      · simp [facultyInitOk, facultyInit, hb] at hok
      · by_cases hs : (pyUrlparse uri).scheme = chars "faculty-datasets"
        · by_cases hn : (pyUrlparse uri).netloc = []
          · by_cases hu : pyUUIDOk (firstPart (cleanedPath (pyUrlparse uri).path))
            · exact ⟨hs, hn, hu⟩
            · simp [facultyInitOk, facultyInit, hb, hs, hn, hu] at hok
          · simp [facultyInitOk, facultyInit, hb, hs, hn] at hok
        · simp [facultyInitOk, facultyInit, hb, hs] at hok
    · rintro ⟨hs, hn, hu⟩
      have hb := ipv6Bad_of_netloc_nil uri hn
      simp [facultyInitOk, facultyInit, hb, hs, hn, hu]
  · intro hb hs
    simp [facultyInit, hb, hs]
  · intro hb hs hn
    simp [facultyInit, hb, hs, hn]
  · intro hs hn hu
    have hb := ipv6Bad_of_netloc_nil uri hn
    simp [facultyInit, hb, hs, hn, hu]
  · exact fun repo hok => facultyInit_ok_inv uri repo hok

/-- C1 witness: the theorem applied at a succeeding URI, a
wrong-scheme URI and an invalid-UUID URI, with every hypothesis
discharged by computation. -/
theorem c1_witness :
    facultyInitOk (chars "faculty-datasets:2e37e380-599e-4b53-b928-ba26c35aa0d1/path/in/datasets") = true ∧
    facultyInit (chars "wrong-schema:") =
      .error (schemeErrMsg (chars "wrong-schema:")) ∧
    facultyInit (chars "faculty-datasets:invalid-uri") =
      .error (uuidErrMsg (chars "invalid-uri")
        (chars "faculty-datasets:invalid-uri")) := by
  refine ⟨?_, ?_, ?_⟩
  · exact (c1_theorem _).1.mpr ⟨by decide, by decide, by decide⟩
  · exact (c1_theorem _).2.1 (by decide) (by decide)
  · exact (c1_theorem _).2.2.2.1 (by decide) (by decide) (by decide)

/-- C1 counterexample: construction succeeds on a URI whose first path
segment is a 32-digit hyphenless string, which is accepted by Python's
UUID parser but is not a canonical textual UUID; so "succeeds iff the
first segment parses as a canonical UUID" fails right-to-left as
stated. -/
theorem c1_counterexample :
    facultyInitOk (chars "faculty-datasets:12345678123456781234567812345678/some/path") = true ∧
    specCanonicalUUID (firstPart (cleanedPath
      (pyUrlparse (chars "faculty-datasets:12345678123456781234567812345678/some/path")).path)) = false := by
  exact ⟨by decide, by decide⟩

/-- C5: constructing with the root spelled without or with a trailing
slash yields the identical stored root `/path/in/datasets/`, and every
successfully constructed root starts with `/`. -/
theorem c5_theorem :
    (facultyInit (chars "faculty-datasets:2e37e380-599e-4b53-b928-ba26c35aa0d1/path/in/datasets") =
      facultyInit (chars "faculty-datasets:2e37e380-599e-4b53-b928-ba26c35aa0d1/path/in/datasets/")) ∧
    (facultyInit (chars "faculty-datasets:2e37e380-599e-4b53-b928-ba26c35aa0d1/path/in/datasets") =
      .ok ⟨chars "2e37e380-599e-4b53-b928-ba26c35aa0d1",
        chars "/path/in/datasets/"⟩) ∧
    (∀ uri repo, facultyInit uri = .ok repo →
      repo.datasets_artifact_root.headD ' ' = '/') := by
  refine ⟨by decide, by decide, ?_⟩
  intro uri repo hok
  rw [(facultyInit_ok_inv uri repo hok).2]
  rfl

/-- C5 witness: the universal part applied to a concretely constructed
adapter. -/
theorem c5_witness :
    (FacultyRepo.mk (chars "2e37e380-599e-4b53-b928-ba26c35aa0d1")
      (chars "/path/in/datasets/")).datasets_artifact_root.headD ' ' = '/' :=
  c5_theorem.2.2
    (chars "faculty-datasets:2e37e380-599e-4b53-b928-ba26c35aa0d1/path/in/datasets")
    _ (by decide)

/-- C8: with the correct scheme and a non-empty authority (not itself
rejected as an unmatched IPv6 bracket), construction fails with the
netloc error, whose message contains the corrected suggestion
`faculty-datasets:<netloc><path>`; concretely,
`faculty-datasets://<uuid>/path` suggests
`faculty-datasets:<uuid>/path`. -/
theorem c8_theorem (uri : Str)
    (hb : (pyUrlparse uri).ipv6Bad = false)
    (hs : (pyUrlparse uri).scheme = chars "faculty-datasets")
    (hn : (pyUrlparse uri).netloc ≠ []) :
    facultyInit uri = .error
      (netlocErrMsg uri (pyUrlparse uri).netloc (pyUrlparse uri).path) ∧
    (chars "faculty-datasets:" ++ (pyUrlparse uri).netloc ++
        (pyUrlparse uri).path) <:+:
      netlocErrMsg uri (pyUrlparse uri).netloc (pyUrlparse uri).path ∧
    facultyInit (chars "faculty-datasets://2e37e380-599e-4b53-b928-ba26c35aa0d1/path") =
      .error (netlocErrMsg
        (chars "faculty-datasets://2e37e380-599e-4b53-b928-ba26c35aa0d1/path")
        (chars "2e37e380-599e-4b53-b928-ba26c35aa0d1") (chars "/path")) ∧
    (chars "faculty-datasets:2e37e380-599e-4b53-b928-ba26c35aa0d1/path") <:+:
      netlocErrMsg
        (chars "faculty-datasets://2e37e380-599e-4b53-b928-ba26c35aa0d1/path")
        (chars "2e37e380-599e-4b53-b928-ba26c35aa0d1") (chars "/path") := by
  refine ⟨by simp [facultyInit, hb, hs, hn], ?_, by decide, ?_⟩
  · refine ⟨chars "Invalid URI " ++ uri ++
      chars ". Netloc is reserved. Did you mean '", [Char.ofNat 39], ?_⟩
    unfold netlocErrMsg
    have hsplit : chars ". Netloc is reserved. Did you mean 'faculty-datasets:" =
        chars ". Netloc is reserved. Did you mean '" ++
          chars "faculty-datasets:" := by decide
    rw [hsplit]
    have hq : chars "'" = [Char.ofNat 39] := by decide
    rw [hq]
    simp
  · refine ⟨chars "Invalid URI faculty-datasets://2e37e380-599e-4b53-b928-ba26c35aa0d1/path. Netloc is reserved. Did you mean '",
      [Char.ofNat 39], ?_⟩
    decide

/-- C8 witness: the general part applied at the concrete
double-slash URI. -/
theorem c8_witness :
    facultyInit (chars "faculty-datasets://2e37e380-599e-4b53-b928-ba26c35aa0d1/path") =
      .error (netlocErrMsg
        (chars "faculty-datasets://2e37e380-599e-4b53-b928-ba26c35aa0d1/path")
        (pyUrlparse (chars "faculty-datasets://2e37e380-599e-4b53-b928-ba26c35aa0d1/path")).netloc
        (pyUrlparse (chars "faculty-datasets://2e37e380-599e-4b53-b928-ba26c35aa0d1/path")).path) :=
  (c8_theorem _ (by decide) (by decide) (by decide)).1

/-! ## Helper lemmas for leading-slash insensitivity -/

lemma lstrip_allslash (s y : Str) (h : ∀ c ∈ s, c = '/') :
    pyLStripChars ['/'] (s ++ y) = pyLStripChars ['/'] y := by
  induction s with
  | nil => simp
  | cons c t ih =>
    have hc : c = '/' := h c (List.mem_cons_self c t)
    rw [List.cons_append, lstripSlash_eq_dropWhile, List.dropWhile_cons]
    rw [if_pos (by simp [hc])]
    rw [← lstripSlash_eq_dropWhile]
    exact ih (fun d hd => h d (List.mem_cons_of_mem c hd))

lemma getLastD_append_right (l l' : Str) (h : l' ≠ []) :
    (l ++ l').getLastD ' ' = l'.getLastD ' ' := by
  rw [List.getLastD_eq_getLast?, List.getLastD_eq_getLast?,
    List.getLast?_append]
  cases hl : l'.getLast? with
  | none =>
    rw [List.getLast?_eq_none_iff] at hl
    exact absurd hl h
  | some a => rfl

lemma lstrip_head_cons (d : Char) (q : Str) (hd : d ≠ '/') :
    pyLStripChars ['/'] (d :: q) = d :: q := by
  rw [lstripSlash_eq_dropWhile, List.dropWhile_cons, if_neg (by simp [hd])]

/-- The suffix `posixJoin` appends to its first argument (when the
second does not start with a slash). -/
def joinTail (a b : Str) : Str :=
  if a = [] ∨ a.getLastD ' ' = '/' then b else '/' :: b

lemma posixJoin_eq_append (a b : Str) (hb : b.headD ' ' ≠ '/') :
    posixJoin a b = a ++ joinTail a b := by
  unfold posixJoin joinTail
  rw [if_neg (by simpa using hb)]
  by_cases h : a = [] ∨ a.getLastD ' ' = '/'
  · rw [if_pos ?c1, if_pos h]
    case c1 =>
      rcases h with h | h
      · simp [h]
      · simp only [List.getLastD_eq_getLast?] at h
        simp [h]
  · have h2 := h
    rw [not_or] at h2
    rw [if_neg ?c2, if_neg h]
    case c2 =>
      have h3 : ¬ (List.getLast? a).getD ' ' = '/' := by
        simpa using h2.2
      simp [h2.1, h3]

/-- Leading-slash insensitivity of the `log_artifact` destination
computation: prepending slashes to the artifact-path argument does not
change the stripped join with the basename. -/
lemma lstrip_join_basename (n : Nat) (p b : Str) (hb : b.headD ' ' ≠ '/') :
    pyLStripChars ['/'] (posixJoin (List.replicate n '/' ++ p) b) =
      pyLStripChars ['/'] (posixJoin (pyLStripChars ['/'] p) b) := by
  have hsplit : p.takeWhile (fun c => c == '/') ++
      p.dropWhile (fun c => c == '/') = p := List.takeWhile_append_dropWhile _ _
  have htake : ∀ c ∈ p.takeWhile (fun c => c == '/'), c = '/' := by
    intro c hc
    have := List.all_eq_true.mp
      (List.all_takeWhile (l := p) (p := fun c => c == '/')) _ hc
    simpa using this
  have hall : ∀ c ∈ List.replicate n '/' ++ p.takeWhile (fun c => c == '/'),
      c = '/' := by
    intro c hc
    rcases List.mem_append.mp hc with hc | hc
    · exact List.eq_of_mem_replicate hc
    · exact htake c hc
  have hallp : ∀ c ∈ List.replicate n '/' ++ p.takeWhile (fun c => c == '/'),
      c = '/' := hall
  rw [posixJoin_eq_append _ b hb, posixJoin_eq_append _ b hb]
  cases hq : p.dropWhile (fun c => c == '/') with
  | nil =>
    have hlq : pyLStripChars ['/'] p = [] := by
      rw [lstripSlash_eq_dropWhile, hq]
    have hallfull : ∀ c ∈ List.replicate n '/' ++ p, c = '/' := by
      intro c hc
      rcases List.mem_append.mp hc with hc | hc
      · exact List.eq_of_mem_replicate hc
      · have hc2 : c ∈ p.takeWhile (fun c => c == '/') := by
          rw [← hsplit, hq, List.append_nil] at hc
          exact hc
        exact htake c hc2
    rw [hlq]
    have htail : joinTail (List.replicate n '/' ++ p) b = joinTail [] b := by
      unfold joinTail
      rw [if_pos (Or.inl rfl)]
      by_cases hrn : List.replicate n '/' ++ p = []
      · rw [if_pos (Or.inl hrn)]
      · have hgl : (List.replicate n '/' ++ p).getLastD ' ' = '/' := by
          rw [List.getLastD_eq_getLast?,
            List.getLast?_eq_getLast _ hrn, Option.getD_some]
          exact hallfull _ (List.getLast_mem _)
        rw [if_pos (Or.inr hgl)]
    rw [htail]
    rw [lstrip_allslash _ _ hallfull, List.nil_append]
  | cons d q' =>
    have hq2 : pyLStripChars ['/'] p = d :: q' := by
      rw [lstripSlash_eq_dropWhile, hq]
    have hd : d ≠ '/' := by
      have hh := lstripSlash_head p
      rw [hq2] at hh
      simpa using hh
    have hdecomp : List.replicate n '/' ++ p =
        (List.replicate n '/' ++ p.takeWhile (fun c => c == '/')) ++ (d :: q') := by
      conv_lhs => rw [← hsplit]
      rw [hq]
      simp
    have htail : joinTail (List.replicate n '/' ++ p) b = joinTail (d :: q') b := by
      unfold joinTail
      have hgl : (List.replicate n '/' ++ p).getLastD ' ' =
          (d :: q').getLastD ' ' := by
        rw [hdecomp]
        exact getLastD_append_right _ _ (by simp)
      by_cases hg : (d :: q').getLastD ' ' = '/'
      · rw [if_pos (Or.inr (hgl.trans hg)), if_pos (Or.inr hg)]
      · rw [if_neg ?ca, if_neg ?cb]
        case ca =>
          rintro (hc | hc)
          · rw [hdecomp] at hc
            simp at hc
          · exact hg (hgl ▸ hc)
        case cb =>
          rintro (hc | hc)
          · exact List.noConfusion hc
          · exact hg hc
    rw [hq2, htail, hdecomp, List.append_assoc, lstrip_allslash _ _ hall]

/-- C9: the dataset-path computation is insensitive to leading slashes
on the caller-supplied path — prepending any number of `/` yields the
path computed for the argument with all leading slashes removed — and
consequently the delegated dataset paths of `log_artifact`,
`log_artifacts`, `list_artifacts` (its listing prefix) and
`_download_file` agree on slash-prefixed and stripped arguments. -/
theorem c9_theorem (repo : FacultyRepo)
    (p local_file local_dir local_path : Str) (n : Nat) :
    datasetsPath repo.datasets_artifact_root (List.replicate n '/' ++ p) =
      datasetsPath repo.datasets_artifact_root (pyLStripChars ['/'] p) ∧
    logArtifactCall repo local_file (some (List.replicate n '/' ++ p)) =
      logArtifactCall repo local_file (some (pyLStripChars ['/'] p)) ∧
    logArtifactsCall repo local_dir (some (List.replicate n '/' ++ p)) =
      logArtifactsCall repo local_dir (some (pyLStripChars ['/'] p)) ∧
    listingPfx repo.datasets_artifact_root (some (List.replicate n '/' ++ p)) =
      listingPfx repo.datasets_artifact_root (some (pyLStripChars ['/'] p)) ∧
    downloadFileCall repo (List.replicate n '/' ++ p) local_path =
      downloadFileCall repo (pyLStripChars ['/'] p) local_path := by
  have hmain : ∀ root, datasetsPath root (List.replicate n '/' ++ p) =
      datasetsPath root (pyLStripChars ['/'] p) := by
    intro root
    unfold datasetsPath
    rw [lstripSlash_replicate, lstripSlash_idem]
  refine ⟨hmain _, ?_, ?_, ?_, ?_⟩
  · unfold logArtifactCall
    simp only [Option.getD_some]
    congr 1
    unfold datasetsPath
    rw [lstrip_join_basename n p _ (basename_head local_file)]
  · unfold logArtifactsCall
    simp only [Option.getD_some]
    congr 1
    exact hmain _
  · unfold listingPfx
    simp only [Option.getD_some]
    rw [hmain]
  · unfold downloadFileCall
    congr 1
    exact hmain _

/-! ## Helper lemmas: listing -/

lemma dropWhile_head_false {α : Type} (q : α → Bool) (m : List α) (x : α)
    (xs : List α) (h : m.dropWhile q = x :: xs) : q x = false := by
  induction m with
  | nil => simp at h
  | cons c t ih =>
    rw [List.dropWhile_cons] at h
    by_cases hq : q c
    · rw [if_pos hq] at h
      exact ih h
    · rw [if_neg hq] at h
      injection h with h1 _
      subst h1
      simpa using hq

/-- The function `os.path.dirname` can never return the literal `"./"`: its result
either is empty, or consists only of slashes, or has had its trailing
slashes stripped. -/
lemma posixDirname_ne_dotslash (l : Str) : posixDirname l ≠ chars "./" := by
  unfold posixDirname
  intro h
  rw [show chars "./" = ['.', '/'] from rfl] at h
  by_cases hc : (l.reverse.dropWhile (fun c => c ≠ '/')).reverse ≠ [] ∧
      (l.reverse.dropWhile (fun c => c ≠ '/')).reverse ≠
        List.replicate (l.reverse.dropWhile (fun c => c ≠ '/')).reverse.length '/'
  · rw [if_pos hc] at h
    unfold pyRStripChars at h
    have h2 : ((l.reverse.dropWhile (fun c => c ≠ '/')).reverse).reverse.dropWhile
        (fun c => (['/'] : List Char).contains c) = ['/', '.'] := by
      have := congrArg List.reverse h
      simpa using this
    have h3 := dropWhile_head_false _ _ _ _ h2
    rw [contains_slash] at h3
    simp at h3
  · rw [if_neg hc] at h
    rcases not_and_or.mp hc with hc | hc
    · rw [not_not] at hc
      rw [hc] at h
      exact List.noConfusion h
    · rw [not_not] at hc
      rw [hc] at h
      have hl : (l.reverse.dropWhile (fun c => c ≠ '/')).reverse.length = 2 := by
        have := congrArg List.length h
        simpa using this
      rw [hl] at h
      have h4 := congrArg (fun t => List.headD t ' ') h
      simp [List.replicate] at h4

/-- C2: the final filter of `list_artifacts` drops exactly the entries
with display path `/` or `.` (for any `recursive`), plus — when not
recursive — those whose dirname is neither empty nor the literal raw
`path` argument; when recursive, all non-root entries are kept; order
is that of the underlying listing. -/
theorem c2_theorem {α : Type} (conv : α → FileInfo) (path : Str)
    (recursive : Bool) (infos : List FileInfo)
    (first : ListPage α) (rest : List (ListPage α)) :
    ((listArtifactsRun conv (some path) recursive first rest).1 =
      filterListing path recursive ((gatherPages first rest).1.map conv)) ∧
    (∀ i ∈ filterListing path recursive infos,
      ¬(i.path = chars "/" ∨ i.path = chars ".")) ∧
    (recursive = true →
      filterListing path true infos =
        infos.filter (fun i =>
          !(i.path == chars "/" || i.path == chars "."))) ∧
    (recursive = false →
      filterListing path false infos =
        infos.filter (fun i =>
          !(i.path == chars "/" || i.path == chars ".") &&
            (posixDirname i.path == ([] : Str) ||
              posixDirname i.path == path))) ∧
    (filterListing path recursive infos).Sublist infos := by
  refine ⟨rfl, ?_, ?_, ?_, List.filter_sublist _⟩
  · intro i hi
    have hk := List.of_mem_filter hi
    unfold keepInfo at hk
    rw [Bool.and_eq_true] at hk
    have h1 := hk.1
    simp only [Bool.not_eq_true', Bool.or_eq_false_iff, beq_eq_false_iff_ne] at h1
    rintro (h | h)
    · exact h1.1 h
    · exact h1.2 h
  · intro _
    unfold filterListing
    apply List.filter_congr
    intro i _
    unfold keepInfo
    simp
  · intro _
    unfold filterListing
    apply List.filter_congr
    intro i _
    unfold keepInfo
    simp

/-- C2 witness: a concrete filtering run derived from the theorem. -/
theorem c2_witness :
    filterListing (chars "a/dir") false
        [⟨chars "a/dir/x0", false, 0⟩, ⟨chars "/", true, 0⟩,
          ⟨chars "b/c/d", false, 0⟩] =
      ([⟨chars "a/dir/x0", false, 0⟩, ⟨chars "/", true, 0⟩,
          ⟨chars "b/c/d", false, 0⟩] : List FileInfo).filter (fun i =>
        !(i.path == chars "/" || i.path == chars ".") &&
          (posixDirname i.path == ([] : Str) ||
            posixDirname i.path == chars "a/dir")) :=
  (c2_theorem (fun _ : Unit => (⟨[], false, 0⟩ : FileInfo)) (chars "a/dir")
    false _ ⟨[], none⟩ []).2.2.2.1 rfl

/-- C3: the pagination loop makes one `list` call, then one further
call per continuation token, concatenating the returned objects in
arrival order; on a well-formed script of `k + 1` pages it makes
exactly `k + 1` calls.  Concretely, two pages of five objects produce
exactly two calls and ten accumulated objects, which are all converted
and (with `recursive = true` and non-root paths) all returned in
order. -/
theorem c3_theorem {α : Type} (conv : α → FileInfo) (path : Option Str)
    (recursive : Bool) (first : ListPage α) (rest : List (ListPage α))
    (hwf : pagesWellFormed first rest) :
    (gatherPages first rest =
      (first.objects ++ (rest.map (fun p => p.objects)).flatten,
        rest.length + 1)) ∧
    ((listArtifactsRun conv path recursive first rest).2 =
      rest.length + 1) ∧
    (gatherPages (⟨[0, 1, 2, 3, 4], some (chars "token")⟩ : ListPage Nat)
        [⟨[5, 6, 7, 8, 9], none⟩] =
      ([0, 1, 2, 3, 4, 5, 6, 7, 8, 9], 2)) ∧
    ((listArtifactsRun (fun j => ⟨List.replicate (j + 1) 'a', false, 0⟩)
        none true
        (⟨[0, 1, 2, 3, 4], some (chars "token")⟩ : ListPage Nat)
        [⟨[5, 6, 7, 8, 9], none⟩]).1 =
      ([0, 1, 2, 3, 4, 5, 6, 7, 8, 9] : List Nat).map
        (fun j => (⟨List.replicate (j + 1) 'a', false, 0⟩ : FileInfo))) := by
  have hmain : ∀ (p : ListPage α) (qs : List (ListPage α)),
      pagesWellFormed p qs →
      gatherPages p qs =
        (p.objects ++ (qs.map (fun p => p.objects)).flatten, qs.length + 1) := by
    intro p qs
    induction qs generalizing p with
    | nil =>
      intro hw
      unfold pagesWellFormed at hw
      unfold gatherPages
      rw [hw]
      simp
    | cons q t ih =>
      intro hw
      unfold pagesWellFormed at hw
      obtain ⟨t0, ht0⟩ := Option.ne_none_iff_exists'.mp hw.1
      unfold gatherPages
      rw [ht0]
      simp only []
      rw [ih q hw.2]
      simp
  refine ⟨hmain first rest hwf, ?_, by decide, by decide⟩
  have h2 : (listArtifactsRun conv path recursive first rest).2 =
      (gatherPages first rest).2 := rfl
  rw [h2, hmain first rest hwf]

/-- C3 witness: the universal pagination law applied to the concrete
two-page script. -/
theorem c3_witness :
    gatherPages (⟨[10, 11], some (chars "t")⟩ : ListPage Nat)
        [⟨[12], none⟩] = ([10, 11, 12], 2) :=
  (c3_theorem (fun _ => (⟨[], false, 0⟩ : FileInfo)) none false _ _
    (by unfold pagesWellFormed; exact ⟨by simp, rfl⟩)).1

/-- C10: `list_artifacts` with `path = None` substitutes `"./"`, and
since `os.path.dirname` never returns `"./"`, a non-recursive default
listing keeps exactly the entries with an empty parent directory. -/
theorem c10_theorem {α : Type} (conv : α → FileInfo) :
    (∀ s : Str, posixDirname s ≠ chars "./") ∧
    (∀ infos : List FileInfo,
      filterListing (chars "./") false infos =
        infos.filter (fun i =>
          !(i.path == chars "/" || i.path == chars ".") &&
            posixDirname i.path == ([] : Str))) ∧
    (∀ (first : ListPage α) (rest : List (ListPage α)),
      (listArtifactsRun conv none false first rest).1 =
        ((gatherPages first rest).1.map conv).filter (fun i =>
          !(i.path == chars "/" || i.path == chars ".") &&
            posixDirname i.path == ([] : Str))) := by
  have hfilter : ∀ infos : List FileInfo,
      filterListing (chars "./") false infos =
        infos.filter (fun i =>
          !(i.path == chars "/" || i.path == chars ".") &&
            posixDirname i.path == ([] : Str)) := by
    intro infos
    unfold filterListing
    apply List.filter_congr
    intro i _
    unfold keepInfo
    have hne : (posixDirname i.path == chars "./") = false :=
      beq_eq_false_iff_ne.mpr (posixDirname_ne_dotslash i.path)
    rw [hne]
    simp
  exact ⟨posixDirname_ne_dotslash, hfilter, fun first rest => hfilter _⟩

/-- C10 witness: the dirname fact and the default-path filter at
concrete values, via the theorem. -/
theorem c10_witness :
    posixDirname (chars "sub/dir/") ≠ chars "./" ∧
    filterListing (chars "./") false
        [⟨chars "top", false, 0⟩, ⟨chars "sub/file", false, 0⟩] =
      ([⟨chars "top", false, 0⟩, ⟨chars "sub/file", false, 0⟩] :
          List FileInfo).filter (fun i =>
        !(i.path == chars "/" || i.path == chars ".") &&
          posixDirname i.path == ([] : Str)) :=
  ⟨(c10_theorem (fun _ : Unit => (⟨[], false, 0⟩ : FileInfo))).1 _,
    (c10_theorem (fun _ : Unit => (⟨[], false, 0⟩ : FileInfo))).2.1 _⟩

/-! ## Helper lemmas: escaping and clean roots -/

lemma splitSep_of_no_slash (b : Str) (hb : '/' ∉ b) : splitSep b = [b] := by
  induction b with
  | nil => rfl
  | cons c t ih =>
    have hc : c ≠ '/' := fun h => hb (h ▸ List.mem_cons_self c t)
    have ht : '/' ∉ t := fun h => hb (List.mem_cons_of_mem c h)
    rw [splitSep_other c t hc, ih ht, List.modifyHead_cons]

/-- C4 (amended): the produced dataset path is the normalization of
the join of the root with the slash-stripped caller path; and when
neither the root (a single-leading-slash absolute path) nor the
stripped caller path contains a `..` component, the result lies under
the normalized root.  (Caller paths with `..` can escape — see the
counterexample.) -/
theorem c4_theorem (root p : Str)
    (h1 : slashCount root = 1)
    (hddr : ['.', '.'] ∉ splitSep root)
    (hddp : ['.', '.'] ∉ splitSep (pyLStripChars ['/'] p)) :
    datasetsPath root p =
      pyNormpath (posixJoin root (pyLStripChars ['/'] p)) ∧
    underRoot root (datasetsPath root p) = true := by
  refine ⟨rfl, ?_⟩
  rw [datasetsPath_chr root p h1 hddr hddp]
  unfold underRoot
  rw [pyNormpath_chr root h1 hddr]
  by_cases hp : goodComps (splitSep (pyLStripChars ['/'] p)) = []
  · rw [hp, List.append_nil]
    simp
  · by_cases hr : goodComps (splitSep root) = []
    · rw [hr]
      have h3 : (('/' :: joinSep ([] : List Str) : Str) == chars "/") = true := by
        decide
      rw [h3]
      simp
    · rw [joinSep_append _ _ hr hp]
      have hpre : (('/' :: joinSep (goodComps (splitSep root))) ++ ['/']).isPrefixOf
          ('/' :: (joinSep (goodComps (splitSep root)) ++ '/' ::
            joinSep (goodComps (splitSep (pyLStripChars ['/'] p))))) = true := by
        rw [List.isPrefixOf_iff_prefix]
        refine ⟨joinSep (goodComps (splitSep (pyLStripChars ['/'] p))), ?_⟩
        simp
      rw [hpre]
      simp

/-- C4 witness: a benign relative path stays under the root. -/
theorem c4_witness :
    underRoot (chars "/path/in/datasets/")
      (datasetsPath (chars "/path/in/datasets/") (chars "a/b")) = true :=
  (c4_theorem (chars "/path/in/datasets/") (chars "a/b")
    (by decide) (by decide) (by decide)).2

/-- C4 counterexample: from the constructed root `/r/`, the caller
path `../etc` produces `/etc`, which does not lie under the root — the
claimed "never escapes above the declared root" is false. -/
theorem c4_counterexample :
    facultyInit (chars "faculty-datasets:2e37e380-599e-4b53-b928-ba26c35aa0d1/r/") =
      .ok ⟨chars "2e37e380-599e-4b53-b928-ba26c35aa0d1", chars "/r/"⟩ ∧
    datasetsPath (chars "/r/") (chars "../etc") = chars "/etc" ∧
    underRoot (chars "/r/")
      (datasetsPath (chars "/r/") (chars "../etc")) = false := by
  exact ⟨by decide, by decide, by decide⟩

/-- Structure of a "clean" root: one whose components are all plain
names (non-empty, not `.`, not `..`) wrapped in single slashes. -/
lemma normpath_clean_root (root : Str) (cs : List Str)
    (hsp : splitSep root = [] :: cs ++ [[]])
    (hcs : ∀ c ∈ cs, goodComp c = true ∧ c ≠ ['.', '.']) :
    pyNormpath root = '/' :: joinSep cs ∧
    (cs = [] → root = chars "/") ∧
    (cs ≠ [] → root = ('/' :: joinSep cs) ++ ['/']) ∧
    slashCount root = 1 := by
  have hroot : root = joinSep (([] :: cs) ++ [[]]) := by
    rw [← joinSep_splitSep root, hsp]
  have hgood : goodComps (splitSep root) = cs := by
    rw [hsp]
    show goodComps (([] :: cs) ++ [[]]) = cs
    rw [goodComps_append]
    unfold goodComps
    rw [List.filter_cons]
    rw [show goodComp ([] : Str) = false by decide]
    simp only [Bool.false_eq_true, if_false]
    rw [List.filter_eq_self.mpr (fun c hc => (hcs c hc).1)]
    simp [goodComp]
  have hdd : ['.', '.'] ∉ splitSep root := by
    rw [hsp]
    intro hmem
    rcases List.mem_cons.mp hmem with hm | hm
    · exact List.noConfusion hm
    · rcases List.mem_append.mp hm with hm | hm
      · exact (hcs _ hm).2 rfl
      · simp at hm
  cases cs with
  | nil =>
    have hr : root = chars "/" := by
      rw [hroot]
      rfl
    refine ⟨?_, fun _ => hr, fun h => absurd rfl h, by rw [hr]; decide⟩
    rw [hr]
    decide
  | cons c0 cs' =>
    have hrootc : root = ('/' :: joinSep (c0 :: cs')) ++ ['/'] := by
      rw [hroot, List.cons_append,
        joinSep_cons [] ((c0 :: cs') ++ [[]]) (by simp),
        joinSep_append (c0 :: cs') [[]] (by simp) (by simp)]
      rfl
    obtain ⟨ch, c0t, hc0⟩ : ∃ ch c0t, c0 = ch :: c0t := by
      cases hc : c0 with
      | nil =>
        have hg := (hcs c0 (List.mem_cons_self _ _)).1
        rw [hc] at hg
        exact absurd hg (by decide)
      | cons ch c0t => exact ⟨ch, c0t, rfl⟩
    have hch : ch ≠ '/' := by
      intro he
      have hmem : c0 ∈ splitSep root := by
        rw [hsp]
        exact List.mem_cons_of_mem _
          (List.mem_append_left _ (List.mem_cons_self _ _))
      exact splitSep_no_slash root c0 hmem (by rw [hc0, he]; simp)
    obtain ⟨rest, hrest⟩ : ∃ rest, root = '/' :: ch :: rest := by
      cases hcs' : cs' with
      | nil =>
        refine ⟨c0t ++ ['/'], ?_⟩
        rw [hrootc, hcs']
        simp [joinSep, hc0]
      | cons d ds =>
        refine ⟨(c0t ++ '/' :: joinSep (d :: ds)) ++ ['/'], ?_⟩
        rw [hrootc, hcs', joinSep_cons c0 (d :: ds) (by simp), hc0]
        simp
    have hsl : slashCount root = 1 := by
      rw [hrest]
      unfold slashCount
      rw [if_neg ?hne2,
        if_pos (show List.take 1 ('/' :: ch :: rest) = ['/'] from rfl)]
      case hne2 =>
        intro he
        simp only [List.take] at he
        injection he with _ he2
        injection he2 with he2 _
        exact hch he2
    refine ⟨?_, fun h => List.noConfusion h, fun _ => hrootc, hsl⟩
    rw [pyNormpath_chr root hsl hdd, hgood]

/-- Resolving `_datasets_path(root, "./")` is just the normalized root. -/
lemma datasetsPath_dot (root : Str) :
    datasetsPath root (chars "./") = pyNormpath root := by
  unfold datasetsPath
  rw [show pyLStripChars ['/'] (chars "./") = chars "./" from by decide]
  by_cases hr : root = []
  · subst hr
    decide
  · have hp : (chars "./").headD ' ' ≠ '/' := by decide
    apply pyNormpath_congr _ _ (posixJoin_ne_nil root _ hr) hr
    · exact slashCount_join root _ hr hp
    · rw [goodComps_join root _ hr hp,
        show goodComps (splitSep (chars "./")) = [] from by decide,
        List.append_nil]

/-- C7: `log_artifacts` computes its destination as the normalized
join of the root and the destination path — no base name appended;
with destination `None` (equivalently `"./"`) the delegated path is
the normalization of the stored root, which for a clean root is the
root with its trailing slash stripped. -/
theorem c7_theorem (repo : FacultyRepo) (local_dir ap : Str)
    (cs : List Str) :
    (logArtifactsCall repo local_dir (some ap) =
      ⟨local_dir, datasetsPath repo.datasets_artifact_root ap,
        repo.project_id⟩) ∧
    (logArtifactsCall repo local_dir none =
      logArtifactsCall repo local_dir (some (chars "./"))) ∧
    ((logArtifactsCall repo local_dir none).dest =
      pyNormpath repo.datasets_artifact_root) ∧
    (splitSep repo.datasets_artifact_root = [] :: cs ++ [[]] →
      (∀ c ∈ cs, goodComp c = true ∧ c ≠ ['.', '.']) →
      cs ≠ [] →
      (logArtifactsCall repo local_dir none).dest =
        repo.datasets_artifact_root.dropLast) := by
  have hdest : (logArtifactsCall repo local_dir none).dest =
      pyNormpath repo.datasets_artifact_root := by
    show datasetsPath repo.datasets_artifact_root (chars "./") =
      pyNormpath repo.datasets_artifact_root
    exact datasetsPath_dot _
  refine ⟨rfl, rfl, hdest, ?_⟩
  intro hsp hcs hne
  obtain ⟨hnorm, _, hshape, _⟩ := normpath_clean_root _ cs hsp hcs
  rw [hdest, hnorm, hshape hne, List.dropLast_concat]

/-- C7 witness: with the canonical root, the `None` destination
delegates exactly the root minus its trailing slash. -/
theorem c7_witness :
    (logArtifactsCall
        ⟨chars "2e37e380-599e-4b53-b928-ba26c35aa0d1",
          chars "/path/in/datasets/"⟩
        (chars "/local/dir") none).dest =
      (chars "/path/in/datasets/").dropLast :=
  (c7_theorem
    ⟨chars "2e37e380-599e-4b53-b928-ba26c35aa0d1",
      chars "/path/in/datasets/"⟩
    (chars "/local/dir") (chars "unused")
    [chars "path", chars "in", chars "datasets"]).2.2.2
    (by decide) (by decide) (by decide)

lemma slashCount_slash_cons (r : Str) (h : r.headD ' ' ≠ '/') :
    slashCount ('/' :: r) = 1 := by
  cases r with
  | nil => decide
  | cons x xs =>
    have hx : x ≠ '/' := by simpa using h
    unfold slashCount
    rw [if_neg ?h2,
      if_pos (show List.take 1 ('/' :: x :: xs) = ['/'] from rfl)]
    case h2 =>
      intro he
      simp only [List.take] at he
      injection he with _ he2
      injection he2 with he2 _
      exact hx he2

/-- The `log_artifact` destination for the default path: joining `"./"`
with a (slash-free-headed) base name and resolving against a root that
ends in `/` is the same as normalizing root-plus-basename. -/
lemma datasetsPath_dot_basename (root b : Str)
    (hlast : root.getLastD ' ' = '/')
    (hb : b.headD ' ' ≠ '/') :
    datasetsPath root (posixJoin (chars "./") b) = pyNormpath (root ++ b) := by
  have hr : root ≠ [] := by
    intro he
    rw [he] at hlast
    simp at hlast
  have hA : posixJoin (chars "./") b = '.' :: '/' :: b := by
    rw [posixJoin_eq_append _ b hb]
    unfold joinTail
    rw [if_pos (Or.inr (by decide))]
    rfl
  rw [hA]
  unfold datasetsPath
  rw [lstrip_head_cons '.' _ (by decide)]
  have hB : posixJoin root ('.' :: '/' :: b) = root ++ '.' :: '/' :: b := by
    rw [posixJoin_eq_append root _ (by simp)]
    unfold joinTail
    rw [if_pos (Or.inr hlast)]
  rw [hB]
  rcases root.eq_nil_or_concat with hnil | ⟨r0, c, hr0⟩
  · exact absurd hnil hr
  · rw [List.concat_eq_append] at hr0
    have hc : c = '/' := by
      rw [hr0, List.getLastD_concat] at hlast
      exact hlast
    subst hc
    subst hr0
    apply pyNormpath_congr
    · simp
    · simp
    · rw [slashCount_append (r0 ++ ['/']) ('.' :: '/' :: b) (by simp)
        (fun _ => by simp),
        slashCount_append (r0 ++ ['/']) b (by simp) (fun _ => hb)]
    · have hsp1 : splitSep ('.' :: '/' :: b) = ['.'] :: splitSep b := by
        rw [splitSep_other '.' _ (by decide), splitSep_slash,
          List.modifyHead_cons]
      have e1 : (r0 ++ ['/']) ++ '.' :: '/' :: b =
          r0 ++ '/' :: ('.' :: '/' :: b) := by simp
      have e2 : (r0 ++ ['/']) ++ b = r0 ++ '/' :: b := by simp
      rw [e1, e2, splitSep_append, splitSep_append, hsp1,
        goodComps_append, goodComps_append]
      congr 1

/-- C6 (amended): `log_artifact` with destination `None` is identical
to destination `"./"`; the delegated dataset path equals the POSIX
normalization of root-plus-basename whenever the root ends in `/` (as
every stored root does), and it equals the plain concatenation
root-plus-basename exactly when the root is already in normal form and
the base name is a regular component.  (For a non-normalized root such
as `/a//b/` the two differ — see the counterexample.) -/
theorem c6_theorem (repo : FacultyRepo) (local_file : Str) (cs : List Str) :
    (logArtifactCall repo local_file none =
      logArtifactCall repo local_file (some (chars "./"))) ∧
    (repo.datasets_artifact_root.getLastD ' ' = '/' →
      (logArtifactCall repo local_file none).dest =
        pyNormpath (repo.datasets_artifact_root ++
          posixBasename local_file)) ∧
    (splitSep repo.datasets_artifact_root = [] :: cs ++ [[]] →
      (∀ c ∈ cs, goodComp c = true ∧ c ≠ ['.', '.']) →
      goodComp (posixBasename local_file) = true →
      posixBasename local_file ≠ ['.', '.'] →
      (logArtifactCall repo local_file none).dest =
        repo.datasets_artifact_root ++ posixBasename local_file) := by
  have hdest : (logArtifactCall repo local_file none).dest =
      datasetsPath repo.datasets_artifact_root
        (posixJoin (chars "./") (posixBasename local_file)) := rfl
  refine ⟨rfl, ?_, ?_⟩
  · intro hlast
    rw [hdest]
    exact datasetsPath_dot_basename _ _ hlast (basename_head local_file)
  · intro hsp hcs hbg hbd
    obtain ⟨hnorm, hnil, hshape, hsl⟩ :=
      normpath_clean_root _ cs hsp hcs
    have hspb : splitSep (posixBasename local_file) =
        [posixBasename local_file] :=
      splitSep_of_no_slash _ (basename_no_slash local_file)
    cases cs with
    | nil =>
      have hroot := hnil rfl
      have hlast : repo.datasets_artifact_root.getLastD ' ' = '/' := by
        rw [hroot]
        decide
      rw [hdest,
        datasetsPath_dot_basename _ _ hlast (basename_head local_file),
        hroot]
      have hcons : chars "/" ++ posixBasename local_file =
          '/' :: posixBasename local_file := rfl
      rw [hcons]
      have hs1 : slashCount ('/' :: posixBasename local_file) = 1 :=
        slashCount_slash_cons _ (basename_head local_file)
      have hdd : ['.', '.'] ∉ splitSep ('/' :: posixBasename local_file) := by
        rw [splitSep_slash, hspb]
        intro hm
        rcases List.mem_cons.mp hm with h | h
        · exact List.noConfusion h
        · rcases List.mem_cons.mp h with h | h
          · exact hbd h.symm
          · simp at h
      rw [pyNormpath_chr _ hs1 hdd, splitSep_slash, hspb]
      have hg : goodComps ([] :: [posixBasename local_file]) =
          [posixBasename local_file] := by
        unfold goodComps
        rw [List.filter_cons,
          show goodComp ([] : Str) = false from by decide]
        simp only [Bool.false_eq_true, if_false]
        rw [List.filter_cons, hbg]
        simp
      rw [hg]
      rfl
    | cons c0 cs' =>
      have hrootc := hshape (by simp)
      have hrne : repo.datasets_artifact_root ≠ [] := by
        rw [hrootc]
        simp
      have hlast : repo.datasets_artifact_root.getLastD ' ' = '/' := by
        rw [hrootc, List.getLastD_concat]
      rw [hdest,
        datasetsPath_dot_basename _ _ hlast (basename_head local_file)]
      have hspA : splitSep ('/' :: joinSep (c0 :: cs')) = [] :: c0 :: cs' := by
        have hx : splitSep ('/' :: joinSep (c0 :: cs')) ++ [([] : Str)] =
            ([] :: c0 :: cs') ++ [([] : Str)] := by
          rw [show ([([] : Str)] : List Str) = splitSep [] from rfl,
            ← splitSep_append ('/' :: joinSep (c0 :: cs')) [],
            show ('/' :: joinSep (c0 :: cs')) ++ '/' :: ([] : Str) =
              repo.datasets_artifact_root from by rw [hrootc],
            hsp]
          rfl
        exact List.append_cancel_right hx
      have hsprb : splitSep (repo.datasets_artifact_root ++
          posixBasename local_file) =
          ([] :: c0 :: cs') ++ [posixBasename local_file] := by
        rw [hrootc, List.append_assoc,
          show (['/'] : Str) ++ posixBasename local_file =
            '/' :: posixBasename local_file from rfl,
          splitSep_append, hspA, hspb]
      have hs1 : slashCount (repo.datasets_artifact_root ++
          posixBasename local_file) = 1 := by
        rw [slashCount_append _ _ hrne (fun _ => basename_head local_file)]
        exact hsl
      have hdd2 : ['.', '.'] ∉ splitSep (repo.datasets_artifact_root ++
          posixBasename local_file) := by
        rw [hsprb]
        intro hm
        rcases List.mem_append.mp hm with hm1 | hm1
        · rcases List.mem_cons.mp hm1 with h | h2
          · exact List.noConfusion h
          · rcases List.mem_cons.mp h2 with h | h
            · exact (hcs c0 (List.mem_cons_self _ _)).2 h.symm
            · exact (hcs _ (List.mem_cons_of_mem _ h)).2 rfl
        · rcases List.mem_cons.mp hm1 with h | h
          · exact hbd h.symm
          · simp at h
      rw [pyNormpath_chr _ hs1 hdd2, hsprb]
      have hg : goodComps (([] :: c0 :: cs') ++ [posixBasename local_file]) =
          (c0 :: cs') ++ [posixBasename local_file] := by
        rw [goodComps_append]
        congr 1
        · unfold goodComps
          rw [List.filter_cons,
            show goodComp ([] : Str) = false from by decide]
          simp only [Bool.false_eq_true, if_false]
          exact List.filter_eq_self.mpr (fun c hc => (hcs c hc).1)
        · unfold goodComps
          rw [List.filter_cons, hbg]
          simp
      rw [hg, joinSep_append (c0 :: cs') [posixBasename local_file]
        (by simp) (by simp), hrootc]
      simp [joinSep]

/-- C6 witness: with the canonical clean root, the default-destination
upload goes to root-plus-basename, via the theorem. -/
theorem c6_witness :
    (logArtifactCall
        ⟨chars "2e37e380-599e-4b53-b928-ba26c35aa0d1",
          chars "/path/in/datasets/"⟩
        (chars "/local/file.txt") none).dest =
      chars "/path/in/datasets/" ++ posixBasename (chars "/local/file.txt") :=
  (c6_theorem
    ⟨chars "2e37e380-599e-4b53-b928-ba26c35aa0d1",
      chars "/path/in/datasets/"⟩
    (chars "/local/file.txt")
    [chars "path", chars "in", chars "datasets"]).2.2
    (by decide) (by decide) (by decide) (by decide)

/-- C6 counterexample: for the constructed (non-normalized) root
`/a//b/` and local file `f.txt`, the delegated destination is the
normalized `/a/b/f.txt`, not the claimed concatenation
`/a//b/f.txt`. -/
theorem c6_counterexample :
    facultyInit (chars "faculty-datasets:2e37e380-599e-4b53-b928-ba26c35aa0d1/a//b/") =
      .ok ⟨chars "2e37e380-599e-4b53-b928-ba26c35aa0d1", chars "/a//b/"⟩ ∧
    (logArtifactCall
        ⟨chars "2e37e380-599e-4b53-b928-ba26c35aa0d1", chars "/a//b/"⟩
        (chars "f.txt") none).dest = chars "/a/b/f.txt" ∧
    chars "/a//b/" ++ posixBasename (chars "f.txt") = chars "/a//b/f.txt" ∧
    (chars "/a/b/f.txt" : Str) ≠ chars "/a//b/f.txt" := by
  exact ⟨by decide, by decide, by decide, by decide⟩
